import Mathlib

/-!
# gitlab-cloner: a shallow embedding of `main.go`

The program lists the projects of a GitLab group page by page (`listProjects`)
and then clones or fetches each of them (`action`).  Everything outside the
program (the HTTP server, the JSON decoder's verdict on a body, the file system,
the `git` child processes) is an `Env`: a record of answers, indexed by the loop
iteration that asks.  The library routines whose result the program's behaviour
depends on literally (`url.Values.Encode`, `url.QueryEscape`, `path.Join`,
`path.Clean`) are transcribed from the Go standard library.
-/

namespace GitlabCloner

/-! ## Data model -/

/-- The Go struct `Project`: only the JSON field `name` is decoded. -/
structure Project where
  Name : String
deriving DecidableEq, Repr

/-! ## `net/url`: query values -/

/-- The Go type `url.Values` (`map[string][]string`) as an association list:
one entry per key, the values of a key in insertion order. -/
abbrev Values := List (String × List String)

/-- The method `Values.Add`: `v[key] = append(v[key], value)`. -/
def Values.add : Values → String → String → Values
  | [], key, value => [(key, [value])]
  | (k, vs) :: rest, key, value =>
    if k = key then (k, vs ++ [value]) :: rest
    else (k, vs) :: Values.add rest key value

/-- The table `upperhex` of `net/url`. -/
def upperhex (n : Nat) : Char :=
  "0123456789ABCDEF".data.getD n '0'

/-- The function `shouldEscape(c, encodeQueryComponent)` of `net/url`, negated:
the bytes that `QueryEscape` copies unchanged are the ASCII letters and digits
and `-`, `_`, `.`, `~`. -/
def unreserved (c : Char) : Bool :=
  (('a' ≤ c ∧ c ≤ 'z') ∨ ('A' ≤ c ∧ c ≤ 'Z') ∨ ('0' ≤ c ∧ c ≤ '9'))
    || c = '-' || c = '_' || c = '.' || c = '~'

/-- What `escape(s, encodeQueryComponent)` writes for one character: itself when
unreserved, `+` for a space, and `%XX` for every byte of its UTF-8 encoding
otherwise. -/
def escapeChar (c : Char) : List Char :=
  if unreserved c then [c]
  else if c = ' ' then ['+']
  else (String.utf8EncodeChar c).flatMap
    (fun b => ['%', upperhex (b.toNat / 16), upperhex (b.toNat % 16)])

/-- The function `url.QueryEscape`. -/
def queryEscape (s : String) : String :=
  String.mk (s.data.flatMap escapeChar)

/-- Go's `<` on strings, on their characters: lexicographic by code point (the
order of the UTF-8 bytes is the order of the code points). -/
def lessChars : List Char → List Char → Bool
  | _, [] => false
  | [], _ :: _ => true
  | a :: as, b :: bs => a.toNat < b.toNat || (a.toNat = b.toNat && lessChars as bs)

/-- Insertion of a key into a list of keys sorted by Go's `<`. -/
def insertKey (k : String) : List String → List String
  | [] => [k]
  | x :: xs => if lessChars k.data x.data then k :: x :: xs else x :: insertKey k xs

/-- The call `slices.Sort(keys)` inside `Values.Encode`. -/
def sortKeys (keys : List String) : List String :=
  keys.foldr insertKey []

/-- The lookup `v[k]` of a Go map: the empty slice for a missing key. -/
def Values.get (v : Values) (key : String) : List String :=
  match v.find? (fun e => e.1 = key) with
  | some e => e.2
  | none => []

/-- The method `Values.Encode`: the keys in sorted order, for each key its
values in order, each pair written `QueryEscape(k)=QueryEscape(v)`, the pairs
separated by `&`. -/
def Values.encode (v : Values) : String :=
  "&".intercalate
    ((sortKeys (v.map (fun e => e.1))).flatMap
      (fun k => (Values.get v k).map (fun x => queryEscape k ++ "=" ++ queryEscape x)))

/-! ## `path`: lexical path cleaning -/

/-- The backtracking of `path.Clean` at a `..` element, on the output written so
far in reverse (last byte first): `out.w--`, then
`for out.w > dotdot && out.index(out.w) != '/' { out.w-- }`. -/
def backtrack (dotdot : Nat) : List Char → List Char
  | [] => []
  | c :: out => if out.length > dotdot ∧ c ≠ '/' then backtrack dotdot out else out

/-- The loop `for r < n` of `path.Clean`.  `rest` is `path[r:]`, `out` is the
output buffer in reverse, `dotdot` the index where backtracking stops; the
first argument bounds the number of iterations (each consumes a byte). -/
def cleanLoop (rooted : Bool) : Nat → List Char → List Char → Nat → List Char
  | 0, _, out, _ => out
  | _ + 1, [], out, _ => out
  | fuel + 1, c :: rest, out, dotdot =>
    if c = '/' then
      -- empty path element
      cleanLoop rooted fuel rest out dotdot
    else if c = '.' ∧ (rest = [] ∨ rest.head? = some '/') then
      -- . element
      cleanLoop rooted fuel rest out dotdot
    else if c = '.' ∧ rest.head? = some '.' ∧
        (rest.tail = [] ∨ rest.tail.head? = some '/') then
      -- .. element: remove to last /
      if out.length > dotdot then
        cleanLoop rooted fuel rest.tail (backtrack dotdot out) dotdot
      else if rooted = false then
        let out1 := if out.length > 0 then '/' :: out else out
        cleanLoop rooted fuel rest.tail ('.' :: '.' :: out1) (out1.length + 2)
      else
        cleanLoop rooted fuel rest.tail out dotdot
    else
      -- real path element: add slash if needed, copy element
      let out1 :=
        if (rooted = true ∧ out.length ≠ 1) ∨ (rooted = false ∧ out.length ≠ 0)
        then '/' :: out else out
      cleanLoop rooted fuel ((c :: rest).dropWhile (fun x => x != '/'))
        (((c :: rest).takeWhile (fun x => x != '/')).reverse ++ out1) dotdot

/-- The function `path.Clean`, on the characters of the path (the bytes `/` and
`.` it looks for never occur inside a multi-byte character). -/
def pathClean (path : String) : String :=
  if path = "" then "."
  else
    let rooted := path.data.head? = some '/'
    let out :=
      if rooted then cleanLoop true path.data.length path.data.tail ['/'] 1
      else cleanLoop false path.data.length path.data [] 0
    if out.length = 0 then "." else String.mk out.reverse

/-- The function `path.Join`: empty leading elements are skipped, the others
are joined by `/`, and the result is cleaned; all elements empty gives `""`. -/
def pathJoin (elem : List String) : String :=
  if (elem.map String.length).sum = 0 then ""
  else
    pathClean (elem.foldl
      (fun buf e =>
        if buf.length > 0 ∨ e ≠ "" then (if buf.length > 0 then buf ++ "/" else buf) ++ e
        else buf) "")

/-! ## The environment -/

/-- The request built by one iteration of the listing loop: the method, the
text handed to `http.NewRequest` as the URL (`rawURL`; it is parsed there, it is
not yet the URL that is requested), and the `RawQuery` the loop then sets on the
parsed URL. -/
structure Request where
  method : String
  rawURL : String
  rawQuery : String
deriving DecidableEq, Repr

/-- The characters of a raw URL that `url.Parse` keeps as they are in a host or
a path: the unreserved characters and `/`. -/
def plainURLChar (c : Char) : Bool :=
  unreserved c || c = '/'

/-- The URL that is requested, `req.URL.String()`, where `url.Parse` is simple:
for a raw URL `https://` followed by unreserved characters and `/` only, the
parse finds that host and path and neither query nor fragment, and the string
form of the URL is the raw URL, `?` and the `RawQuery`.  For any other raw URL
(a `#`, a `?`, a space, a non-ASCII character, ...) the parse is not modelled and
the result is `none`. -/
def Request.urlString (r : Request) : Option String :=
  if r.rawURL.data.take 8 = "https://".data ∧ (r.rawURL.data.drop 8).all plainURLChar
  then some (r.rawURL ++ "?" ++ r.rawQuery)
  else none

/-- What one iteration of the listing loop meets: `http.NewRequest` fails,
`client.Do` fails, `ioutil.ReadAll` fails, or the body is read; in the last case
the response has a status code, and `json.Unmarshal` leaves `projects` in the
slice and returns `decodeErr`. -/
inductive PageOutcome where
  | requestError (err : String)
  | transportError (err : String)
  | readError (err : String)
  | body (status : Nat) (projects : List Project) (decodeErr : Option String)
deriving DecidableEq, Repr

/-- The result of `os.Stat` as far as the program looks at it: no error, an
error for which `os.IsNotExist` holds, or any other error. -/
inductive StatResult where
  | found
  | notExist
  | failed (err : String)
deriving DecidableEq, Repr

/-- The function `os.IsNotExist` on the error of a stat. -/
def StatResult.isNotExist : StatResult → Bool
  | .notExist => true
  | _ => false

/-- The fields of `exec.Cmd` the program sets: `Args` (`Args[0]` is the command
name) and `Dir`. -/
structure Cmd where
  args : List String
  dir : String
deriving DecidableEq, Repr

/-- The world around one run.  `query url` is what `req.URL.Query()` returns for
a request created from `url`; `page i` is what iteration `i` of the listing loop
meets; `stat i path` is the result of `os.Stat(path)` and `run i cmd` the error
of `cmd.Run()` (`none` for exit status 0) while the project at position `i` of
the listing is processed. -/
structure Env where
  query : String → Values
  page : Nat → PageOutcome
  stat : Nat → String → StatResult
  run : Nat → Cmd → Option String

/-- The observable steps of a run, in order.  `stat` and `run` carry the
position in the listing of the project they are made for. -/
inductive Event where
  | request (r : Request)
  | mkdirAll (path : String) (perm : Nat)
  | stat (i : Nat) (path : String)
  | run (i : Nat) (cmd : Cmd)
  | logInfo (msg : String)
  | logError (msg : String)
deriving DecidableEq, Repr

/-! ## `listProjects` -/

/-- The function `errors.Wrap(err, message)`, as the text of the new error. -/
def wrap (err message : String) : String :=
  message ++ ": " ++ err

/-- The value `url` of the loop body:
`fmt.Sprintf("https://%s/api/v4/groups/%s/projects", host, group)`. -/
def projectsURL (host group : String) : String :=
  "https://" ++ host ++ "/api/v4/groups/" ++ group ++ "/projects"

/-- The request of iteration `i`: lines 28 to 38 of `main.go`. -/
def pageRequest (env : Env) (host group accessToken : String) (i : Nat) : Request :=
  let url := projectsURL host group
  let q := env.query url
  let q := Values.add q "access_token" accessToken
  let q := Values.add q "page" (toString i)
  let q := Values.add q "per_page" "100"
  { method := "GET", rawURL := url, rawQuery := Values.encode q }

/-- What `listProjects` returns, with the requests handed to `client.Do` in
order.  `names = none` is the nil slice of the error returns. -/
structure ListResult where
  names : Option (List String)
  err : Option String
  requests : List Request
deriving DecidableEq, Repr

/-- The loop `for i := 0; true; i++` of `listProjects`, from iteration `i` with
`res` accumulated and `reqs` sent so far.  The first argument bounds the number
of iterations; `none` means the bound was reached with the loop still running.
The counter is a natural number: every iteration that continues appends at
least one string to `res`, so the 64-bit counter cannot wrap before memory is
exhausted. -/
def listLoop (env : Env) (host group accessToken : String) :
    Nat → Nat → List String → List Request → Option ListResult
  | 0, _, _, _ => none
  | fuel + 1, i, res, reqs =>
    let req := pageRequest env host group accessToken i
    match env.page i with
    | .requestError err =>
      some { names := none, err := some (wrap err "Failed to create request"), requests := reqs }
    | .transportError err =>
      some { names := none, err := some (wrap err "Failed to access gitlab"),
             requests := reqs ++ [req] }
    | .readError err =>
      some { names := none, err := some (wrap err "Failed to read from resp"),
             requests := reqs ++ [req] }
    | .body _ projects _ =>
      if projects.length = 0 then
        some { names := some res, err := none, requests := reqs ++ [req] }
      else
        listLoop env host group accessToken fuel (i + 1)
          (res ++ projects.map (fun proj => proj.Name)) (reqs ++ [req])

/-- The function `listProjects`. -/
def listProjects (env : Env) (fuel : Nat) (host group accessToken : String) :
    Option ListResult :=
  listLoop env host group accessToken fuel 0 [] []

/-! ## `action` -/

/-- The command of the clone branch (lines 85 and 86). -/
def cloneCmd (host group targetDirectory proj : String) : Cmd :=
  { args := ["git", "clone", "git@" ++ host ++ ":" ++ group ++ "/" ++ proj ++ ".git"],
    dir := targetDirectory }

/-- The command of the fetch branch (lines 95 and 96). -/
def fetchCmd (dir : String) : Cmd :=
  { args := ["git", "fetch", "origin"], dir := dir }

/-- What `action` returns, with the steps it performed. -/
structure ActionResult where
  err : Option String
  trace : List Event
deriving DecidableEq, Repr

/-- The loop `for _, proj := range projects` of `action`, from position `i` of
the listing. -/
def syncLoop (env : Env) (host group targetDirectory : String) :
    Nat → List String → ActionResult
  | _, [] => { err := none, trace := [] }
  | i, proj :: rest =>
    let dir := pathJoin [targetDirectory, proj]
    if (env.stat i dir).isNotExist then
      -- clone if not exists
      let cmd := cloneCmd host group targetDirectory proj
      match env.run i cmd with
      | some err =>
        { err := none,
          trace := [.stat i dir, .logInfo ("Cloning " ++ proj), .run i cmd,
                    .logError ("Failed to clone " ++ proj ++ ": " ++ err)] }
      | none =>
        let r := syncLoop env host group targetDirectory (i + 1) rest
        { err := r.err,
          trace := [.stat i dir, .logInfo ("Cloning " ++ proj), .run i cmd] ++ r.trace }
    else
      -- fetch if exists
      let cmd := fetchCmd dir
      match env.run i cmd with
      | some err =>
        { err := none,
          trace := [.stat i dir, .logInfo ("Fetching " ++ proj), .run i cmd,
                    .logError ("Failed to fetch " ++ proj ++ ": " ++ err)] }
      | none =>
        let r := syncLoop env host group targetDirectory (i + 1) rest
        { err := r.err,
          trace := [.stat i dir, .logInfo ("Fetching " ++ proj), .run i cmd] ++ r.trace }

/-- The values `action` reads from the command line. -/
structure Flags where
  group : String
  host : String
  accessToken : String
  targetDirectory : String
deriving DecidableEq, Repr

/-- The function `action`; `none` when the listing loop is still running after
`fuel` iterations. -/
def action (env : Env) (fuel : Nat) (c : Flags) : Option ActionResult :=
  match listProjects env fuel c.host c.group c.accessToken with
  | none => none
  | some l =>
    match l.err, l.names with
    | some err, _ =>
      some { err := none,
             trace := l.requests.map Event.request ++
               [.logError ("Failed to list projects: " ++ err)] }
    | none, names =>
      let r := syncLoop env c.host c.group c.targetDirectory 0 (names.getD [])
      some { err := r.err,
             trace := l.requests.map Event.request ++
               [.mkdirAll c.targetDirectory 0o755] ++ r.trace }

/-- The function `main`, as the exit status of the process: `app.Run` runs
`action` on the parsed flags, `main` discards what `app.Run` returns and ends. -/
def main (env : Env) (fuel : Nat) (c : Flags) : Option Nat :=
  match action env fuel c with
  | none => none
  | some _ => some 0

/-! ## Reading a trace -/

/-- The process invocations of a trace, each with the listing position it was
made for. -/
def invocations (trace : List Event) : List (Nat × Cmd) :=
  trace.filterMap (fun e => match e with
    | .run i cmd => some (i, cmd)
    | _ => none)

/-- The command the loop of `action` runs for `proj` at position `i`: the clone
when the stat of the joined path reports not-exist, the fetch otherwise. -/
def syncCmd (env : Env) (host group targetDirectory : String) (i : Nat) (proj : String) : Cmd :=
  if (env.stat i (pathJoin [targetDirectory, proj])).isNotExist
  then cloneCmd host group targetDirectory proj
  else fetchCmd (pathJoin [targetDirectory, proj])

/-! ## Predicates on the environment -/

/-- The iteration takes one of the three error returns of `listProjects`: the
request cannot be created, cannot be sent, or its body cannot be read. -/
def PageOutcome.isError : PageOutcome → Bool
  | .body _ _ _ => false
  | _ => true

/-- The iteration leaves the loop: an error return, or a body that leaves an
empty slice. -/
def PageOutcome.endsListing : PageOutcome → Bool
  | .body _ projects _ => projects.length = 0
  | _ => true

/-- The same outcome with another HTTP status code. -/
def PageOutcome.setStatus (status : Nat) : PageOutcome → PageOutcome
  | .body _ projects decodeErr => .body status projects decodeErr
  | o => o

/-- The same environment with the status code of the response to iteration `i`
replaced by `f i`. -/
def Env.setStatus (env : Env) (f : Nat → Nat) : Env :=
  { env with page := fun i => (env.page i).setStatus (f i) }

/-! ## Concrete environments -/

/-- Page 0 lists `a` and `b`, page 1 is empty; under the target directory `t`
only `t/b` exists; every `git` invocation succeeds. -/
def envTwoProjects : Env where
  query := fun _ => []
  page := fun i => if i = 0 then .body 200 [⟨"a"⟩, ⟨"b"⟩] none else .body 200 [] none
  stat := fun _ path => if path = "t/b" then .found else .notExist
  run := fun _ _ => none

/-- Page 0 lists `a`, the response to page 1 has status 500 and the body `[]`. -/
def envStatus500 : Env where
  query := fun _ => []
  page := fun i => if i = 0 then .body 200 [⟨"a"⟩] none else .body 500 [] none
  stat := fun _ _ => .notExist
  run := fun _ _ => none

/-- Page 0 lists `a`, the request for page 1 cannot be sent. -/
def envTransportFails : Env where
  query := fun _ => []
  page := fun i =>
    if i = 0 then .body 200 [⟨"a"⟩] none else .transportError "connection refused"
  stat := fun _ _ => .notExist
  run := fun _ _ => none

/-- Page 0 lists `a`, `b` and `c`, page 1 is empty; no project directory exists;
the invocation for the project at position 1 exits with a non-zero status. -/
def envSecondFails : Env where
  query := fun _ => []
  page := fun i =>
    if i = 0 then .body 200 [⟨"a"⟩, ⟨"b"⟩, ⟨"c"⟩] none else .body 200 [] none
  stat := fun _ _ => .notExist
  run := fun i _ => if i = 1 then some "exit status 128" else none

/-- The group is `g?z=1`, so the URL handed to `http.NewRequest` carries the
query `z=1/projects` of its own. -/
def envOwnQuery : Env where
  query := fun url =>
    if url = "https://h/api/v4/groups/g?z=1/projects" then [("z", ["1/projects"])] else []
  page := fun _ => .body 200 [] none
  stat := fun _ _ => .notExist
  run := fun _ _ => none

/-- Page 0 lists one project whose name decodes to the empty string, page 1 is
empty; the stat of the empty path reports not-exist, every other path exists. -/
def envEmptyName : Env where
  query := fun _ => []
  page := fun i => if i = 0 then .body 200 [⟨""⟩] none else .body 200 [] none
  stat := fun _ path => if path = "" then .notExist else .found
  run := fun _ _ => none

/-- Page 0 lists `a`, page 1 is empty; the stat of `t/a` fails with an error
other than not-exist. -/
def envStatFails : Env where
  query := fun _ => []
  page := fun i => if i = 0 then .body 200 [⟨"a"⟩] none else .body 200 [] none
  stat := fun _ _ => .failed "permission denied"
  run := fun _ _ => none

/-! ## The listing loop -/

/-- One more iteration on a page that decodes to a non-empty list. -/
theorem listLoop_body_cons (env : Env) (host group tok : String) (fuel i : Nat)
    (res : List String) (reqs : List Request) (st : Nat) (ps : List Project)
    (de : Option String) (hp : env.page i = .body st ps de) (hne : ps ≠ []) :
    listLoop env host group tok (fuel + 1) i res reqs =
      listLoop env host group tok fuel (i + 1) (res ++ ps.map (fun proj => proj.Name))
        (reqs ++ [pageRequest env host group tok i]) := by
  have hlen : ps.length ≠ 0 := by
    intro h
    exact hne (List.length_eq_zero.mp h)
  simp [listLoop, hp, hlen]

/-- The loop runs through `k` pages that each decode to a non-empty list. -/
theorem listLoop_run (env : Env) (host group tok : String) (ps : Nat → List Project) :
    ∀ (k fuel i : Nat) (res : List String) (reqs : List Request),
      (∀ j, j < k → ∃ st de, env.page (i + j) = .body st (ps (i + j)) de ∧ ps (i + j) ≠ []) →
      listLoop env host group tok (k + fuel) i res reqs =
        listLoop env host group tok fuel (i + k)
          (res ++ (List.range k).flatMap (fun j => (ps (i + j)).map (fun proj => proj.Name)))
          (reqs ++ (List.range k).map (fun j => pageRequest env host group tok (i + j))) := by
  intro k
  induction k with
  | zero => intro fuel i res reqs _; simp
  | succ k ih =>
    intro fuel i res reqs h
    obtain ⟨st, de, hp, hne⟩ := h 0 (Nat.succ_pos k)
    rw [Nat.add_zero] at hp hne
    have eq1 : k + 1 + fuel = (k + fuel) + 1 := by omega
    rw [eq1, listLoop_body_cons env host group tok (k + fuel) i res reqs st (ps i) de hp hne]
    rw [ih fuel (i + 1) _ _ (fun j hj => by
      have := h (j + 1) (by omega)
      rwa [show i + (j + 1) = i + 1 + j by omega] at this)]
    have e2 : i + 1 + k = i + (k + 1) := by omega
    rw [e2, List.range_succ_eq_map]
    simp [List.flatMap_map, List.map_map, Function.comp_def, Nat.add_assoc, Nat.add_comm 1]

/-- The loop returns within `k - i + 1` iterations when page `k` leaves it. -/
theorem listLoop_terminates (env : Env) (host group tok : String) (k : Nat)
    (hk : (env.page k).endsListing = true) :
    ∀ (fuel i : Nat) (res : List String) (reqs : List Request),
      i ≤ k → k - i < fuel → (listLoop env host group tok fuel i res reqs).isSome = true := by
  intro fuel
  induction fuel with
  | zero => intro i res reqs _ h; omega
  | succ fuel ih =>
    intro i res reqs hik hf
    unfold listLoop
    cases hp : env.page i with
    | requestError e => simp
    | transportError e => simp
    | readError e => simp
    | body st ps de =>
      by_cases hlen : ps.length = 0
      · simp [hlen]
      · simp only [hlen, if_false]
        have hne : i ≠ k := by
          intro hik2
          subst hik2
          rw [hp] at hk
          simp [PageOutcome.endsListing] at hk
          exact hlen (by simp [hk])
        exact ih (i + 1) _ _ (by omega) (by omega)

/-- The status codes of the responses have no influence on the loop. -/
theorem listLoop_setStatus (env : Env) (f : Nat → Nat) (host group tok : String) :
    ∀ (fuel i : Nat) (res : List String) (reqs : List Request),
      listLoop (env.setStatus f) host group tok fuel i res reqs =
        listLoop env host group tok fuel i res reqs := by
  intro fuel
  induction fuel with
  | zero => intro i res reqs; rfl
  | succ fuel ih =>
    intro i res reqs
    have hreq : pageRequest (env.setStatus f) host group tok i =
        pageRequest env host group tok i := rfl
    have hpage : (env.setStatus f).page i = (env.page i).setStatus (f i) := rfl
    rw [listLoop, listLoop, hreq, hpage]
    cases hp : env.page i with
    | requestError e => rfl
    | transportError e => rfl
    | readError e => rfl
    | body st ps de =>
      simp only [PageOutcome.setStatus]
      by_cases hlen : ps.length = 0
      · simp [hlen]
      · simp only [hlen, if_false]
        exact ih _ _ _

/-- The loop of `action` always ends in a `return nil`. -/
theorem syncLoop_err (env : Env) (host group target : String) :
    ∀ (projects : List String) (i : Nat), (syncLoop env host group target i projects).err = none := by
  intro projects
  induction projects with
  | nil => intro i; rfl
  | cons proj rest ih =>
    intro i
    unfold syncLoop
    by_cases hs : (env.stat i (pathJoin [target, proj])).isNotExist = true
    · simp only [hs, if_true]
      cases hr : env.run i (cloneCmd host group target proj) with
      | none => simpa using ih (i + 1)
      | some e => rfl
    · simp only [hs]
      cases hr : env.run i (fetchCmd (pathJoin [target, proj])) with
      | none => simpa using ih (i + 1)
      | some e => rfl

/-- The requests of the loop are those of consecutive pages. -/
theorem listLoop_requests (env : Env) (host group tok : String) :
    ∀ (fuel i : Nat) (res : List String) (reqs : List Request) (r : ListResult),
      listLoop env host group tok fuel i res reqs = some r →
      ∃ m, r.requests = reqs ++ (List.range m).map (fun j => pageRequest env host group tok (i + j)) := by
  intro fuel
  induction fuel with
  | zero => intro i res reqs r h; simp [listLoop] at h
  | succ fuel ih =>
    intro i res reqs r h
    rw [listLoop] at h
    cases hp : env.page i with
    | requestError e =>
      simp only [hp, Option.some.injEq] at h
      exact ⟨0, by simp [← h]⟩
    | transportError e =>
      simp only [hp, Option.some.injEq] at h
      exact ⟨1, by simp [← h, List.range_succ]⟩
    | readError e =>
      simp only [hp, Option.some.injEq] at h
      exact ⟨1, by simp [← h, List.range_succ]⟩
    | body st ps de =>
      simp only [hp] at h
      by_cases hlen : ps.length = 0
      · simp only [hlen, if_true, Option.some.injEq] at h
        exact ⟨1, by simp [← h, List.range_succ]⟩
      · simp only [hlen, if_false] at h
        obtain ⟨m, hm⟩ := ih _ _ _ r h
        refine ⟨m + 1, ?_⟩
        rw [hm, List.range_succ_eq_map]
        simp [List.map_map, Function.comp_def, Nat.add_assoc, Nat.add_comm 1]

/-! ## The clone-or-fetch loop -/

/-- The invocations of a trace that ends in another trace. -/
theorem invocations_append (l₁ l₂ : List Event) :
    invocations (l₁ ++ l₂) = invocations l₁ ++ invocations l₂ := by
  simp [invocations, List.filterMap_append]

/-- Requests are no process invocations. -/
theorem invocations_requests (reqs : List Request) :
    invocations (reqs.map Event.request) = [] := by
  induction reqs with
  | nil => rfl
  | cons r rest ih => simp [invocations]

/-- The loop runs the command of its first project, and goes on to the next
project exactly when that command succeeds. -/
theorem syncLoop_cons (env : Env) (host group target : String) (i : Nat) (proj : String)
    (rest : List String) :
    invocations (syncLoop env host group target i (proj :: rest)).trace =
      (i, syncCmd env host group target i proj) ::
        (if env.run i (syncCmd env host group target i proj) = none
         then invocations (syncLoop env host group target (i + 1) rest).trace else []) := by
  rw [syncLoop]
  unfold syncCmd
  by_cases hs : (env.stat i (pathJoin [target, proj])).isNotExist = true
  · simp only [hs, if_true]
    cases hr : env.run i (cloneCmd host group target proj) with
    | none => simp [invocations, hr]
    | some e => simp [invocations, hr]
  · simp only [hs]
    cases hr : env.run i (fetchCmd (pathJoin [target, proj])) with
    | none => simp [invocations, hr]
    | some e => simp [invocations, hr]

/-- Every invocation of the loop started at position `i` is made for a position
from `i` on. -/
theorem syncLoop_positions (env : Env) (host group target : String) :
    ∀ (projects : List String) (i : Nat) (x : Nat × Cmd),
      x ∈ invocations (syncLoop env host group target i projects).trace → i ≤ x.1 := by
  intro projects
  induction projects with
  | nil => intro i x hx; simp [syncLoop, invocations] at hx
  | cons proj rest ih =>
    intro i x hx
    rw [syncLoop_cons] at hx
    rcases List.mem_cons.mp hx with h | h
    · rw [h]
    · by_cases hr : env.run i (syncCmd env host group target i proj) = none
      · rw [if_pos hr] at h
        have := ih (i + 1) x h
        omega
      · rw [if_neg hr] at h
        simp at h

/-- When the invocations for the first `k` projects succeed, the loop makes
exactly one invocation for the project at position `k`: its `syncCmd`. -/
theorem syncLoop_at (env : Env) (host group target : String) :
    ∀ (k : Nat) (projects : List String) (i : Nat) (name : String),
      projects[k]? = some name →
      (∀ j p, j < k → projects[j]? = some p →
        env.run (i + j) (syncCmd env host group target (i + j) p) = none) →
      (invocations (syncLoop env host group target i projects).trace).filter
          (fun x => x.1 = i + k) =
        [(i + k, syncCmd env host group target (i + k) name)] := by
  intro k
  induction k with
  | zero =>
    intro projects i name hk _
    cases projects with
    | nil => simp at hk
    | cons proj rest =>
      simp at hk
      subst hk
      rw [syncLoop_cons]
      simp only [Nat.add_zero, List.filter_cons, decide_True, if_true]
      congr 1
      apply List.filter_eq_nil_iff.mpr
      intro x hx
      by_cases hr : env.run i (syncCmd env host group target i proj) = none
      · rw [if_pos hr] at hx
        have := syncLoop_positions env host group target rest (i + 1) x hx
        simp
        omega
      · rw [if_neg hr] at hx
        simp at hx
  | succ k ih =>
    intro projects i name hk hpre
    cases projects with
    | nil => simp at hk
    | cons proj rest =>
      simp at hk
      rw [syncLoop_cons]
      have h0 := hpre 0 proj (Nat.succ_pos k) (by simp)
      rw [Nat.add_zero] at h0
      rw [if_pos h0]
      have hne : ¬ (i = i + (k + 1)) := by omega
      simp only [List.filter_cons, hne, decide_False]
      have := ih rest (i + 1) name hk (fun j p hj hp => by
        have := hpre (j + 1) p (by omega) (by simpa using hp)
        rwa [show i + (j + 1) = i + 1 + j by omega] at this)
      rw [show i + 1 + k = i + (k + 1) by omega] at this
      simpa using this

/-- The invocations of the loop up to and including the first one that fails:
one per project, in listing order. -/
theorem syncLoop_stops (env : Env) (host group target : String) :
    ∀ (k : Nat) (projects : List String) (i : Nat) (name : String),
      projects[k]? = some name →
      (∀ j p, j < k → projects[j]? = some p →
        env.run (i + j) (syncCmd env host group target (i + j) p) = none) →
      env.run (i + k) (syncCmd env host group target (i + k) name) ≠ none →
      invocations (syncLoop env host group target i projects).trace =
        (List.enumFrom i (projects.take (k + 1))).map
          (fun x => (x.1, syncCmd env host group target x.1 x.2)) := by
  intro k
  induction k with
  | zero =>
    intro projects i name hk _ hfail
    cases projects with
    | nil => simp at hk
    | cons proj rest =>
      simp at hk
      subst hk
      rw [Nat.add_zero] at hfail
      rw [syncLoop_cons, if_neg hfail]
      simp [List.enumFrom]
  | succ k ih =>
    intro projects i name hk hpre hfail
    cases projects with
    | nil => simp at hk
    | cons proj rest =>
      simp at hk
      have h0 := hpre 0 proj (Nat.succ_pos k) (by simp)
      rw [Nat.add_zero] at h0
      rw [syncLoop_cons, if_pos h0]
      have := ih rest (i + 1) name hk (fun j p hj hp => by
        have := hpre (j + 1) p (by omega) (by simpa using hp)
        rwa [show i + (j + 1) = i + 1 + j by omega] at this)
        (by rwa [show i + 1 + k = i + (k + 1) by omega])
      rw [this]
      simp [List.enumFrom]

/-- The invocations of the loop when every one succeeds: one per project, in
listing order. -/
theorem syncLoop_all (env : Env) (host group target : String) :
    ∀ (projects : List String) (i : Nat),
      (∀ j p, projects[j]? = some p →
        env.run (i + j) (syncCmd env host group target (i + j) p) = none) →
      invocations (syncLoop env host group target i projects).trace =
        (List.enumFrom i projects).map
          (fun x => (x.1, syncCmd env host group target x.1 x.2)) := by
  intro projects
  induction projects with
  | nil => intro i _; simp [syncLoop, invocations]
  | cons proj rest ih =>
    intro i hall
    have h0 := hall 0 proj (by simp)
    rw [Nat.add_zero] at h0
    rw [syncLoop_cons, if_pos h0]
    have := ih (i + 1) (fun j p hp => by
      have := hall (j + 1) p (by simpa using hp)
      rwa [show i + (j + 1) = i + 1 + j by omega] at this)
    rw [this]
    simp [List.enumFrom]

/-- What `action` does once the listing has returned `projects` without error. -/
theorem action_of_listing (env : Env) (fuel : Nat) (c : Flags) (projects : List String)
    (reqs : List Request)
    (hl : listProjects env fuel c.host c.group c.accessToken =
      some { names := some projects, err := none, requests := reqs }) :
    action env fuel c = some
      { err := (syncLoop env c.host c.group c.targetDirectory 0 projects).err,
        trace := reqs.map Event.request ++ [Event.mkdirAll c.targetDirectory 0o755] ++
          (syncLoop env c.host c.group c.targetDirectory 0 projects).trace } := by
  simp [action, hl]

/-- The invocations of `action` are those of its loop. -/
theorem action_invocations (env : Env) (c : Flags) (projects : List String)
    (reqs : List Request) :
    invocations (reqs.map Event.request ++ [Event.mkdirAll c.targetDirectory 0o755] ++
        (syncLoop env c.host c.group c.targetDirectory 0 projects).trace) =
      invocations (syncLoop env c.host c.group c.targetDirectory 0 projects).trace := by
  rw [invocations_append, invocations_append, invocations_requests]
  simp [invocations]

/-! ## `path.Clean` and a trailing `/` or `/.` -/

/-- Copying a path element stops at the first `/`. -/
theorem takeWhile_append_slash (l s : List Char) :
    (l ++ '/' :: s).takeWhile (fun x => x != '/') = l.takeWhile (fun x => x != '/') := by
  induction l with
  | nil => simp
  | cons a l ih =>
    by_cases ha : a = '/'
    · simp [ha]
    · simp [List.takeWhile_cons, ha, ih]

/-- What follows a path element starts at the first `/`. -/
theorem dropWhile_append_slash (l s : List Char) :
    (l ++ '/' :: s).dropWhile (fun x => x != '/') =
      l.dropWhile (fun x => x != '/') ++ '/' :: s := by
  induction l with
  | nil => simp
  | cons a l ih =>
    by_cases ha : a = '/'
    · simp [ha]
    · simp [List.dropWhile_cons, ha, ih]

/-- The loop of `path.Clean` with nothing left to read. -/
theorem cleanLoop_nil (rooted : Bool) (f : Nat) (out : List Char) (dd : Nat) :
    cleanLoop rooted f [] out dd = out := by
  cases f <;> rfl

/-- A suffix that starts with `/` and that the loop reads without writing
changes nothing. -/
theorem cleanLoop_suffix (rooted : Bool) (s : List Char)
    (hbase : ∀ f out dd, s.length + 1 ≤ f → cleanLoop rooted f ('/' :: s) out dd = out) :
    ∀ (f1 : Nat) (rest out : List Char) (dd f2 : Nat),
      rest.length ≤ f1 → rest.length + s.length + 1 ≤ f2 →
      cleanLoop rooted f2 (rest ++ '/' :: s) out dd = cleanLoop rooted f1 rest out dd := by
  intro f1
  induction f1 with
  | zero =>
    intro rest out dd f2 h1 h2
    have : rest = [] := List.length_eq_zero.mp (Nat.le_zero.mp h1)
    subst this
    rw [cleanLoop_nil]
    exact hbase f2 out dd (by simpa using h2)
  | succ n ih =>
    intro rest out dd f2 h1 h2
    cases rest with
    | nil =>
      rw [cleanLoop_nil]
      exact hbase f2 out dd (by simpa using h2)
    | cons c tl =>
      obtain ⟨m, rfl⟩ : ∃ m, f2 = m + 1 := ⟨f2 - 1, by simp at h2; omega⟩
      simp only [List.length_cons] at h1 h2
      rw [List.cons_append, cleanLoop, cleanLoop]
      by_cases hc : c = '/'
      · rw [if_pos hc, if_pos hc]
        exact ih tl out dd m (by omega) (by omega)
      · rw [if_neg hc, if_neg hc]
        have e2 : (tl ++ '/' :: s = [] ∨ (tl ++ '/' :: s).head? = some '/') ↔
            (tl = [] ∨ tl.head? = some '/') := by
          cases tl <;> simp
        have e3 : ((tl ++ '/' :: s).head? = some '.' ∧
            ((tl ++ '/' :: s).tail = [] ∨ (tl ++ '/' :: s).tail.head? = some '/')) ↔
            (tl.head? = some '.' ∧ (tl.tail = [] ∨ tl.tail.head? = some '/')) := by
          cases tl with
          | nil => simp
          | cons d tl2 => cases tl2 <;> simp
        have etail : tl ≠ [] → (tl ++ '/' :: s).tail = tl.tail ++ '/' :: s := by
          intro h
          cases tl with
          | nil => exact absurd rfl h
          | cons d tl2 => rfl
        by_cases h2c : c = '.' ∧ (tl = [] ∨ tl.head? = some '/')
        · rw [if_pos h2c, if_pos ⟨h2c.1, e2.mpr h2c.2⟩]
          exact ih tl out dd m (by omega) (by omega)
        · have h2c' : ¬ (c = '.' ∧ (tl ++ '/' :: s = [] ∨ (tl ++ '/' :: s).head? = some '/')) :=
            fun h => h2c ⟨h.1, e2.mp h.2⟩
          rw [if_neg h2c, if_neg h2c']
          by_cases h3c : c = '.' ∧ tl.head? = some '.' ∧
              (tl.tail = [] ∨ tl.tail.head? = some '/')
          · have h3c' : c = '.' ∧ (tl ++ '/' :: s).head? = some '.' ∧
                ((tl ++ '/' :: s).tail = [] ∨ (tl ++ '/' :: s).tail.head? = some '/') :=
              ⟨h3c.1, e3.mpr h3c.2⟩
            rw [if_pos h3c, if_pos h3c']
            have hne : tl ≠ [] := by
              intro h
              rw [h] at h3c
              simp at h3c
            have hlen : tl.tail.length + 1 = tl.length := by
              cases tl with
              | nil => exact absurd rfl hne
              | cons d tl2 => simp
            rw [etail hne]
            split
            · exact ih _ _ _ _ (by omega) (by omega)
            · split
              · exact ih _ _ _ _ (by omega) (by omega)
              · exact ih _ _ _ _ (by omega) (by omega)
          · have h3c' : ¬ (c = '.' ∧ (tl ++ '/' :: s).head? = some '.' ∧
                ((tl ++ '/' :: s).tail = [] ∨ (tl ++ '/' :: s).tail.head? = some '/')) :=
              fun h => h3c ⟨h.1, e3.mp h.2⟩
            rw [if_neg h3c, if_neg h3c']
            have ht : (c :: (tl ++ '/' :: s)).takeWhile (fun x => x != '/') =
                (c :: tl).takeWhile (fun x => x != '/') := by
              rw [← List.cons_append, takeWhile_append_slash]
            have hd : (c :: (tl ++ '/' :: s)).dropWhile (fun x => x != '/') =
                (c :: tl).dropWhile (fun x => x != '/') ++ '/' :: s := by
              rw [← List.cons_append, dropWhile_append_slash]
            have hdl : ((c :: tl).dropWhile (fun x => x != '/')).length ≤ tl.length := by
              have hcc : (c != '/') = true := by simpa using hc
              rw [List.dropWhile_cons, if_pos hcc]
              exact (List.dropWhile_sublist _).length_le
            simp only [ht, hd]
            exact ih _ _ _ _ (by omega) (by omega)

/-- Cleaning ignores a suffix that starts with `/` and that the loop reads
without writing. -/
theorem pathClean_suffix (t : String) (ht : t ≠ "") (s : List Char)
    (hbase : ∀ rooted f out dd, s.length + 1 ≤ f →
      cleanLoop rooted f ('/' :: s) out dd = out) :
    pathClean (t ++ String.mk ('/' :: s)) = pathClean t := by
  have hd : t.data ≠ [] := by
    intro h
    apply ht
    cases t
    simp_all
  obtain ⟨c, cs, hcs⟩ := List.exists_cons_of_ne_nil hd
  have hne : t ++ String.mk ('/' :: s) ≠ "" := by
    intro h
    have := congrArg String.data h
    simp [hcs] at this
  unfold pathClean
  rw [if_neg ht, if_neg hne]
  simp only [String.data_append, hcs, List.cons_append, List.head?_cons, List.tail_cons,
    List.length_cons, List.length_append]
  by_cases hr : c = '/'
  · simp only [hr, if_true]
    rw [cleanLoop_suffix true s (hbase true) (cs.length + 1) cs ['/'] 1 _ (by omega) (by omega)]
  · have hr' : ¬ (some c = some '/') := by simpa using hr
    simp only [hr', if_false]
    rw [← List.cons_append,
      cleanLoop_suffix false s (hbase false) (cs.length + 1) (c :: cs) [] 0 _
        (by simp) (by simp; omega)]

/-- A string other than `""` has characters. -/
theorem length_pos_of_ne_empty (t : String) (ht : t ≠ "") : 0 < t.length := by
  cases t with
  | mk data =>
    cases data with
    | nil => exact absurd rfl ht
    | cons c cs => simp [String.length]

/-- The loop of `path.Clean` reads a lone `/` without writing. -/
theorem cleanLoop_slash (rooted : Bool) (f : Nat) (out : List Char) (dd : Nat)
    (hf : 1 ≤ f) : cleanLoop rooted f ['/'] out dd = out := by
  obtain ⟨m, rfl⟩ : ∃ m, f = m + 1 := ⟨f - 1, by omega⟩
  rw [cleanLoop, if_pos rfl, cleanLoop_nil]

/-- The loop of `path.Clean` reads `/.` without writing. -/
theorem cleanLoop_slash_dot (rooted : Bool) (f : Nat) (out : List Char) (dd : Nat)
    (hf : 2 ≤ f) : cleanLoop rooted f ['/', '.'] out dd = out := by
  obtain ⟨m, rfl⟩ : ∃ m, f = m + 2 := ⟨f - 2, by omega⟩
  rw [cleanLoop, if_pos rfl, cleanLoop]
  simp [cleanLoop_nil]

/-- The buffer `path.Join` builds from a non-empty directory and a name. -/
theorem pathJoin_two (t name : String) (ht : t ≠ "") :
    pathJoin [t, name] = pathClean (t ++ "/" ++ name) := by
  have hl : 0 < t.length := length_pos_of_ne_empty t ht
  have hsum : ¬ (([t, name].map String.length).sum = 0) := by simp; omega
  unfold pathJoin
  rw [if_neg hsum]
  have h0 : ¬ ("".length > 0) := by decide
  simp [h0, ht, hl]

/-- Joining a non-empty directory with the empty name gives the cleaned
directory. -/
theorem pathJoin_empty_name (t : String) (ht : t ≠ "") : pathJoin [t, ""] = pathClean t := by
  rw [pathJoin_two t "" ht]
  have e : t ++ "/" ++ "" = t ++ String.mk ('/' :: []) := by
    rw [String.append_empty]
  rw [e]
  exact pathClean_suffix t ht [] (fun rooted f out dd hf =>
    cleanLoop_slash rooted f out dd (by simpa using hf))

/-- Joining a directory with the name `.` gives the cleaned directory. -/
theorem pathJoin_dot (t : String) : pathJoin [t, "."] = pathClean t := by
  by_cases ht : t = ""
  · subst ht
    decide
  · rw [pathJoin_two t "." ht]
    have e : t ++ "/" ++ "." = t ++ String.mk ('/' :: ['.']) := by
      rw [String.append_assoc]; rfl
    rw [e]
    exact pathClean_suffix t ht ['.'] (fun rooted f out dd hf =>
      cleanLoop_slash_dot rooted f out dd (by simpa using hf))

/-! ## The query string -/

/-- The digit characters are unreserved. -/
theorem unreserved_digitChar (m : Nat) (hm : m < 10) : unreserved (Nat.digitChar m) = true := by
  interval_cases m <;> decide

/-- The decimal digits of a number are unreserved. -/
theorem unreserved_toDigitsCore :
    ∀ (fuel n : Nat) (ds : List Char), (∀ c ∈ ds, unreserved c = true) →
      ∀ c ∈ Nat.toDigitsCore 10 fuel n ds, unreserved c = true := by
  intro fuel
  induction fuel with
  | zero => intro n ds hds c hc; exact hds c (by simpa [Nat.toDigitsCore] using hc)
  | succ fuel ih =>
    intro n ds hds c hc
    have hd : ∀ x ∈ Nat.digitChar (n % 10) :: ds, unreserved x = true := by
      intro x hx
      rcases List.mem_cons.mp hx with h | h
      · rw [h]; exact unreserved_digitChar _ (Nat.mod_lt _ (by decide))
      · exact hds x h
    rw [Nat.toDigitsCore] at hc
    by_cases h0 : n / 10 = 0
    · simp only [h0, if_true] at hc
      exact hd c hc
    · simp only [h0, if_false] at hc
      exact ih _ _ hd c hc

/-- A string of unreserved characters is its own escape. -/
theorem queryEscape_of_unreserved (s : String) (h : ∀ c ∈ s.data, unreserved c = true) :
    queryEscape s = s := by
  cases s with
  | mk data =>
    unfold queryEscape
    congr 1
    simp only at h
    induction data with
    | nil => rfl
    | cons c cs ih =>
      have hc := h c (List.mem_cons_self _ _)
      simp only [List.flatMap_cons, escapeChar, hc, if_true]
      rw [ih (fun x hx => h x (List.mem_cons_of_mem _ hx))]
      rfl

/-- The decimal form of a page index is its own escape. -/
theorem queryEscape_toString (i : Nat) : queryEscape (toString i) = toString i := by
  apply queryEscape_of_unreserved
  intro c hc
  exact unreserved_toDigitsCore _ _ [] (by simp) c hc

/-- The `RawQuery` of the request of iteration `i` when the URL has no query of
its own. -/
theorem pageRequest_no_query (env : Env) (host group tok : String) (i : Nat)
    (hq : env.query (projectsURL host group) = []) :
    pageRequest env host group tok i =
      { method := "GET", rawURL := projectsURL host group,
        rawQuery := "access_token=" ++ queryEscape tok ++ "&page=" ++ toString i ++
          "&per_page=100" } := by
  have e1 : queryEscape "access_token" = "access_token" := by decide
  have e2 : queryEscape "page" = "page" := by decide
  have e3 : queryEscape "per_page" = "per_page" := by decide
  have e4 : queryEscape "100" = "100" := by decide
  have hs : sortKeys ["access_token", "page", "per_page"] = ["access_token", "page", "per_page"] := by
    decide
  simp [pageRequest, hq, Values.add, Values.encode, Values.get, hs, e1, e2, e3, e4,
    queryEscape_toString]
  have a1 : ∀ x : String, "&" ++ ("page=" ++ x) = "&page=" ++ x := fun x => by
    rw [← String.append_assoc]; rfl
  have a2 : "&" ++ "per_page=100" = "&per_page=100" := by decide
  simp only [String.intercalate, String.intercalate.go, String.append_assoc, a1, a2]

/-- The steps of the loop for its first project, and what follows them. -/
theorem syncLoop_trace_cons (env : Env) (host group target : String) (i : Nat) (proj : String)
    (rest : List String) :
    ∃ m tail, (syncLoop env host group target i (proj :: rest)).trace =
        Event.stat i (pathJoin [target, proj]) :: Event.logInfo m ::
          Event.run i (syncCmd env host group target i proj) :: tail ∧
      (env.run i (syncCmd env host group target i proj) = none →
        tail = (syncLoop env host group target (i + 1) rest).trace) ∧
      (env.run i (syncCmd env host group target i proj) ≠ none →
        ∃ e, tail = [Event.logError e]) := by
  rw [syncLoop]
  unfold syncCmd
  cases hs : (env.stat i (pathJoin [target, proj])).isNotExist with
  | true =>
    simp only [if_true]
    cases hr : env.run i (cloneCmd host group target proj) with
    | none => exact ⟨_, _, rfl, fun _ => rfl, fun h => absurd rfl h⟩
    | some e => exact ⟨_, _, rfl, fun h => by simp at h, fun _ => ⟨_, rfl⟩⟩
  | false =>
    simp only [Bool.false_eq_true, if_false]
    cases hr : env.run i (fetchCmd (pathJoin [target, proj])) with
    | none => exact ⟨_, _, rfl, fun _ => rfl, fun h => absurd rfl h⟩
    | some e => exact ⟨_, _, rfl, fun h => by simp at h, fun _ => ⟨_, rfl⟩⟩

/-- Every stat of the loop is the stat of the joined path of the project at its
position. -/
theorem syncLoop_stat_path (env : Env) (host group target : String) :
    ∀ (projects : List String) (i n : Nat) (p : String),
      Event.stat n p ∈ (syncLoop env host group target i projects).trace →
      ∃ name, i ≤ n ∧ projects[n - i]? = some name ∧ p = pathJoin [target, name] := by
  intro projects
  induction projects with
  | nil => intro i n p h; simp [syncLoop] at h
  | cons proj rest ih =>
    intro i n p h
    obtain ⟨m, tail, htr, hok, hfail⟩ := syncLoop_trace_cons env host group target i proj rest
    rw [htr] at h
    simp only [List.mem_cons, Event.stat.injEq, reduceCtorEq, false_or] at h
    rcases h with ⟨hn, hp⟩ | h
    · exact ⟨proj, by omega, by simp [hn], hp⟩
    · by_cases hr : env.run i (syncCmd env host group target i proj) = none
      · rw [hok hr] at h
        obtain ⟨name, h1, h2, h3⟩ := ih (i + 1) n p h
        refine ⟨name, by omega, ?_, h3⟩
        have : n - i = (n - (i + 1)) + 1 := by omega
        rw [this]
        simpa using h2
      · obtain ⟨e, he⟩ := hfail hr
        rw [he] at h
        simp at h

/-- When the invocations for the first `k` projects succeed, the loop stats the
joined path of the project at position `k`. -/
theorem syncLoop_stat_mem (env : Env) (host group target : String) :
    ∀ (k : Nat) (projects : List String) (i : Nat) (name : String),
      projects[k]? = some name →
      (∀ j p, j < k → projects[j]? = some p →
        env.run (i + j) (syncCmd env host group target (i + j) p) = none) →
      Event.stat (i + k) (pathJoin [target, name]) ∈
        (syncLoop env host group target i projects).trace := by
  intro k
  induction k with
  | zero =>
    intro projects i name hk _
    cases projects with
    | nil => simp at hk
    | cons proj rest =>
      simp at hk
      subst hk
      obtain ⟨m, tail, htr, _, _⟩ := syncLoop_trace_cons env host group target i proj rest
      rw [htr]
      simp
  | succ k ih =>
    intro projects i name hk hpre
    cases projects with
    | nil => simp at hk
    | cons proj rest =>
      simp at hk
      obtain ⟨m, tail, htr, hok, _⟩ := syncLoop_trace_cons env host group target i proj rest
      have h0 := hpre 0 proj (Nat.succ_pos k) (by simp)
      rw [Nat.add_zero] at h0
      rw [htr, hok h0]
      have := ih rest (i + 1) name hk (fun j p hj hp => by
        have := hpre (j + 1) p (by omega) (by simpa using hp)
        rwa [show i + (j + 1) = i + 1 + j by omega] at this)
      rw [show i + 1 + k = i + (k + 1) by omega] at this
      simp [this]

/-- The loop takes an error return at page `k` after `k` pages that each decode
to a non-empty list. -/
theorem listProjects_error_at (env : Env) (host group tok : String) (ps : Nat → List Project)
    (k fuel : Nat)
    (hpre : ∀ i, i < k → ∃ st de, env.page i = .body st (ps i) de ∧ ps i ≠ [])
    (hfail : (env.page k).isError = true) (hfuel : k < fuel) :
    ∃ e reqs, listProjects env fuel host group tok =
      some { names := none, err := some e, requests := reqs } := by
  obtain ⟨f, rfl⟩ : ∃ f, fuel = k + (f + 1) := ⟨fuel - k - 1, by omega⟩
  unfold listProjects
  rw [listLoop_run env host group tok ps k (f + 1) 0 [] [] (fun j hj => by
    simpa using hpre j hj)]
  rw [listLoop]
  simp only [Nat.zero_add]
  cases hp : env.page k with
  | requestError e => exact ⟨_, _, rfl⟩
  | transportError e => exact ⟨_, _, rfl⟩
  | readError e => exact ⟨_, _, rfl⟩
  | body st l de => rw [hp] at hfail; simp [PageOutcome.isError] at hfail

/-- The loop on `k` pages that each decode to a non-empty list, followed by a
page that decodes to an empty one. -/
theorem listProjects_pages (env : Env) (host group tok : String)
    (ps : Nat → List Project) (k fuel : Nat)
    (hpre : ∀ i, i < k → ∃ st de, env.page i = .body st (ps i) de ∧ ps i ≠ [])
    (hend : ∃ st de, env.page k = .body st [] de) (hfuel : k < fuel) :
    listProjects env fuel host group tok = some
      { names := some ((List.range k).flatMap (fun i => (ps i).map (fun proj => proj.Name))),
        err := none,
        requests := (List.range (k + 1)).map (pageRequest env host group tok) } := by
  obtain ⟨f, rfl⟩ : ∃ f, fuel = k + (f + 1) := ⟨fuel - k - 1, by omega⟩
  obtain ⟨st, de, hk⟩ := hend
  unfold listProjects
  rw [listLoop_run env host group tok ps k (f + 1) 0 [] [] (fun j hj => by
    simpa using hpre j hj)]
  rw [listLoop]
  simp only [Nat.zero_add, hk, List.length_nil, if_true, List.nil_append]
  rw [List.range_succ (n := k)]
  simp

/-- The status codes of the responses have no influence on the loop of `action`. -/
theorem syncLoop_setStatus (env : Env) (f : Nat → Nat) (host group target : String) :
    ∀ (projects : List String) (i : Nat),
      syncLoop (env.setStatus f) host group target i projects =
        syncLoop env host group target i projects := by
  intro projects
  induction projects with
  | nil => intro i; rfl
  | cons proj rest ih =>
    intro i
    have hstat : (env.setStatus f).stat = env.stat := rfl
    have hrun : (env.setStatus f).run = env.run := rfl
    rw [syncLoop, syncLoop, hstat, hrun, ih (i + 1)]

/-- The status codes of the responses have no influence on `action`. -/
theorem action_setStatus (env : Env) (f : Nat → Nat) (fuel : Nat) (c : Flags) :
    action (env.setStatus f) fuel c = action env fuel c := by
  unfold action listProjects
  rw [listLoop_setStatus]
  cases listLoop env c.host c.group c.accessToken fuel 0 [] [] with
  | none => rfl
  | some l => simp only [syncLoop_setStatus]

/-! ## The claims -/

/-- C1: when pages `0 .. k-1` each decode to a non-empty list of projects and
page `k` decodes to an empty list, `listProjects` returns, with a nil error, the
names of pages `0, 1, ..., k-1` concatenated in page order and in response order
within a page, and it has sent exactly `k + 1` requests: the `i`-th is a GET for
the projects URL whose query is the URL's own query values with `access_token`,
then `page` = `i` in decimal, then `per_page` = `100` added, for `i = 0, ..., k`
in increasing order, and nothing after the first empty page; when the URL has no
query of its own the query string of the `i`-th request is
`access_token={QueryEscape(token)}&page={i}&per_page=100` (any bound on the
iterations above `k` is enough). -/
theorem listProjects_concatenates_pages (env : Env) (host group tok : String)
    (ps : Nat → List Project) (k fuel : Nat)
    (hpre : ∀ i, i < k → ∃ st de, env.page i = .body st (ps i) de ∧ ps i ≠ [])
    (hend : ∃ st de, env.page k = .body st [] de) (hfuel : k < fuel) :
    listProjects env fuel host group tok = some
      { names := some ((List.range k).flatMap (fun i => (ps i).map (fun proj => proj.Name))),
        err := none,
        requests := (List.range (k + 1)).map (fun i =>
          { method := "GET",
            rawURL := "https://" ++ host ++ "/api/v4/groups/" ++ group ++ "/projects",
            rawQuery := Values.encode (Values.add (Values.add (Values.add
              (env.query ("https://" ++ host ++ "/api/v4/groups/" ++ group ++ "/projects"))
              "access_token" tok) "page" (toString i)) "per_page" "100") }) } ∧
    (env.query ("https://" ++ host ++ "/api/v4/groups/" ++ group ++ "/projects") = [] →
      ∃ r, listProjects env fuel host group tok = some r ∧
        r.requests = (List.range (k + 1)).map (fun i =>
          { method := "GET",
            rawURL := "https://" ++ host ++ "/api/v4/groups/" ++ group ++ "/projects",
            rawQuery := "access_token=" ++ queryEscape tok ++ "&page=" ++ toString i ++
              "&per_page=100" })) := by
  have h := listProjects_pages env host group tok ps k fuel hpre hend hfuel
  refine ⟨h, fun hq => ⟨_, h, ?_⟩⟩
  apply List.map_congr_left
  intro i _
  exact pageRequest_no_query env host group tok i hq

/-- C1, on the listing of the spec: page 0 is `[a, b]`, page 1 is empty; the
result is `[a, b]` after two requests, for page 0 and for page 1. -/
theorem listProjects_concatenates_pages_witness :
    listProjects envTwoProjects 2 "h" "g" "tok" = some
      { names := some ["a", "b"], err := none,
        requests :=
          [{ method := "GET", rawURL := "https://h/api/v4/groups/g/projects",
             rawQuery := "access_token=tok&page=0&per_page=100" },
           { method := "GET", rawURL := "https://h/api/v4/groups/g/projects",
             rawQuery := "access_token=tok&page=1&per_page=100" }] } := by
  have h := (listProjects_concatenates_pages envTwoProjects "h" "g" "tok"
    (fun i => if i = 0 then [⟨"a"⟩, ⟨"b"⟩] else []) 1 2
    (fun i hi => ⟨200, none, by
      have : i = 0 := by omega
      subst this
      decide⟩)
    ⟨200, none, by decide⟩ (by decide)).1
  rw [h]
  decide

/-- C2, as the code has it: when the iteration for some page cannot create or
send its request or cannot read the body, `listProjects` returns a non-nil error
and a nil list, however many earlier pages had succeeded; the status code of a
response is never looked at, so the result is the same whatever status codes the
responses carry. -/
theorem listProjects_aborts_on_transport_error (env : Env) (host group tok : String)
    (ps : Nat → List Project) (k fuel : Nat) (f : Nat → Nat)
    (hpre : ∀ i, i < k → ∃ st de, env.page i = .body st (ps i) de ∧ ps i ≠ [])
    (hfail : (env.page k).isError = true) (hfuel : k < fuel) :
    (∃ e reqs, listProjects env fuel host group tok =
      some { names := none, err := some e, requests := reqs }) ∧
    listProjects (env.setStatus f) fuel host group tok =
      listProjects env fuel host group tok :=
  ⟨listProjects_error_at env host group tok ps k fuel hpre hfail hfuel,
   listLoop_setStatus env f host group tok fuel 0 [] []⟩

/-- C2 at a run: page 0 lists `a`, sending the request for page 1 fails; the
result is the nil list with an error. -/
theorem listProjects_aborts_on_transport_error_witness :
    (∃ e reqs, listProjects envTransportFails 2 "h" "g" "tok" =
      some { names := none, err := some e, requests := reqs }) ∧
    listProjects (envTransportFails.setStatus (fun _ => 404)) 2 "h" "g" "tok" =
      listProjects envTransportFails 2 "h" "g" "tok" :=
  listProjects_aborts_on_transport_error envTransportFails "h" "g" "tok"
    (fun _ => [⟨"a"⟩]) 1 2 (fun _ => 404)
    (fun i hi => ⟨200, none, by
      have : i = 0 := by omega
      subst this
      decide⟩)
    (by decide) (by decide)

/-- C2 fails on the code: page 0 lists `a` and the response to page 1 has the
status 500; `listProjects` returns the partial list `[a]` with a nil error. -/
theorem listProjects_ignores_status :
    envStatus500.page 1 = .body 500 [] none ∧
    listProjects envStatus500 2 "h" "g" "tok" = some
      { names := some ["a"], err := none,
        requests := [pageRequest envStatus500 "h" "g" "tok" 0,
                     pageRequest envStatus500 "h" "g" "tok" 1] } := by
  decide

/-- C3, as the code has it: when the iteration for page `k` fails with an error
(its request cannot be created or sent, or its body cannot be read) after `k`
pages that decoded to non-empty lists, the listing result is nil, so it holds no
project of any page, and `action` only sends the requests and logs one error: it
does not create the target directory, stats nothing and invokes no `git`
process.  The status code of a response is no such failure: `action` does the
same whatever status codes the responses carry. -/
theorem action_stops_on_failed_request (env : Env) (c : Flags) (ps : Nat → List Project)
    (k fuel : Nat) (f : Nat → Nat)
    (hpre : ∀ i, i < k → ∃ st de, env.page i = .body st (ps i) de ∧ ps i ≠ [])
    (hfail : (env.page k).isError = true) (hfuel : k < fuel) :
    (∃ l r, listProjects env fuel c.host c.group c.accessToken = some l ∧ l.names = none ∧
      action env fuel c = some r ∧ invocations r.trace = [] ∧
      (∀ p perm, Event.mkdirAll p perm ∉ r.trace) ∧
      ∀ e ∈ r.trace, (∃ q, e = Event.request q) ∨ (∃ m, e = Event.logError m)) ∧
    action (env.setStatus f) fuel c = action env fuel c := by
  obtain ⟨e, reqs, hl⟩ :=
    listProjects_error_at env c.host c.group c.accessToken ps k fuel hpre hfail hfuel
  have hact : action env fuel c = some
      { err := none,
        trace := reqs.map Event.request ++
          [Event.logError ("Failed to list projects: " ++ e)] } := by
    simp [action, hl]
  refine ⟨⟨_, _, hl, rfl, hact, ?_, ?_, ?_⟩, action_setStatus env f fuel c⟩
  · rw [invocations_append, invocations_requests]
    simp [invocations]
  · intro p perm
    simp
  · intro e he
    simp only [List.mem_append, List.mem_map, List.mem_singleton] at he
    rcases he with ⟨q, _, hq⟩ | he
    · exact Or.inl ⟨q, hq.symm⟩
    · exact Or.inr ⟨_, he⟩

/-- C3 at a run: page 0 lists `a`, sending the request for page 1 fails; `a` is
neither cloned nor fetched. -/
theorem action_stops_on_failed_request_witness :
    (∃ l r, listProjects envTransportFails 2 "h" "g" "tok" = some l ∧ l.names = none ∧
      action envTransportFails 2 ⟨"g", "h", "tok", "t"⟩ = some r ∧ invocations r.trace = [] ∧
      (∀ p perm, Event.mkdirAll p perm ∉ r.trace) ∧
      ∀ e ∈ r.trace, (∃ q, e = Event.request q) ∨ (∃ m, e = Event.logError m)) ∧
    action (envTransportFails.setStatus (fun _ => 404)) 2 ⟨"g", "h", "tok", "t"⟩ =
      action envTransportFails 2 ⟨"g", "h", "tok", "t"⟩ :=
  action_stops_on_failed_request envTransportFails ⟨"g", "h", "tok", "t"⟩
    (fun _ => [⟨"a"⟩]) 1 2 (fun _ => 404)
    (fun i hi => ⟨200, none, by
      have : i = 0 := by omega
      subst this
      decide⟩)
    (by decide) (by decide)

/-- C3 fails on the code: page 0 lists `a` and the request for page 1 is
answered with the status 500 and the body `[]`; `action` creates the target
directory and clones `a`. -/
theorem action_syncs_after_status_500 :
    envStatus500.page 1 = .body 500 [] none ∧
    (action envStatus500 2 ⟨"g", "h", "tok", "t"⟩).map (fun r => r.trace) = some
      [Event.request { method := "GET", rawURL := "https://h/api/v4/groups/g/projects",
                       rawQuery := "access_token=tok&page=0&per_page=100" },
       Event.request { method := "GET", rawURL := "https://h/api/v4/groups/g/projects",
                       rawQuery := "access_token=tok&page=1&per_page=100" },
       Event.mkdirAll "t" 0o755,
       Event.stat 0 "t/a",
       Event.logInfo "Cloning a",
       Event.run 0 { args := ["git", "clone", "git@h:g/a.git"], dir := "t" }] := by
  decide

/-- C9: whenever the listing loop ends (some page `k` gives an error or an empty
list), `action` returns, and what it returns is nil, whatever the flags and
whatever the outcome of the listing and of the `git` invocations; the process
then ends with exit status 0. -/
theorem action_returns_nil (env : Env) (c : Flags) (k fuel : Nat)
    (hk : (env.page k).endsListing = true) (hfuel : k < fuel) :
    ∃ r, action env fuel c = some r ∧ r.err = none ∧ main env fuel c = some 0 := by
  have hsome := listLoop_terminates env c.host c.group c.accessToken k hk fuel 0 [] []
    (Nat.zero_le k) (by omega)
  obtain ⟨l, hl⟩ := Option.isSome_iff_exists.mp hsome
  have hl' : listProjects env fuel c.host c.group c.accessToken = some l := hl
  have hact : ∃ r, action env fuel c = some r ∧ r.err = none := by
    unfold action
    rw [hl']
    cases l with
    | mk names err reqs =>
      cases err with
      | some e => exact ⟨_, rfl, rfl⟩
      | none => exact ⟨_, rfl, syncLoop_err env c.host c.group c.targetDirectory _ 0⟩
  obtain ⟨r, hr, hnil⟩ := hact
  exact ⟨r, hr, hnil, by simp [main, hr]⟩

/-- C9 at a run whose second `git` invocation fails: `action` still returns nil
and the exit status is 0. -/
theorem action_returns_nil_witness :
    ∃ r, action envSecondFails 2 ⟨"g", "h", "tok", "t"⟩ = some r ∧ r.err = none ∧
      main envSecondFails 2 ⟨"g", "h", "tok", "t"⟩ = some 0 :=
  action_returns_nil envSecondFails ⟨"g", "h", "tok", "t"⟩ 1 2 (by decide) (by decide)

/-- Once the listing has returned `projects`, and the invocations for the
projects before position `i` succeed, `action` makes exactly one invocation for
the project at position `i`: its `syncCmd`. -/
theorem action_invocation_at (env : Env) (fuel : Nat) (c : Flags) (projects : List String)
    (reqs : List Request) (i : Nat) (name : String)
    (hl : listProjects env fuel c.host c.group c.accessToken =
      some { names := some projects, err := none, requests := reqs })
    (hname : projects[i]? = some name)
    (hprev : ∀ j p, j < i → projects[j]? = some p →
      env.run j (syncCmd env c.host c.group c.targetDirectory j p) = none) :
    ∃ r, action env fuel c = some r ∧
      r.trace = reqs.map Event.request ++ [Event.mkdirAll c.targetDirectory 0o755] ++
        (syncLoop env c.host c.group c.targetDirectory 0 projects).trace ∧
      (invocations r.trace).filter (fun x => x.1 = i) =
        [(i, syncCmd env c.host c.group c.targetDirectory i name)] := by
  refine ⟨_, action_of_listing env fuel c projects reqs hl, rfl, ?_⟩
  rw [action_invocations]
  have h := syncLoop_at env c.host c.group c.targetDirectory i projects 0 name hname
    (fun j p hj hp => by simpa using hprev j p hj hp)
  simpa using h

/-- C4: for a project `name` at position `i` of the listing whose joined path
`target/name` does not exist when it is processed, the invocations for the
earlier projects having succeeded, `action` makes exactly one process invocation
for that project: `git clone git@{host}:{group}/{name}.git` with the target
directory as working directory, and so no fetch. -/
theorem action_clones_absent_project (env : Env) (fuel : Nat) (c : Flags)
    (projects : List String) (reqs : List Request) (i : Nat) (name : String)
    (hl : listProjects env fuel c.host c.group c.accessToken =
      some { names := some projects, err := none, requests := reqs })
    (hname : projects[i]? = some name)
    (hprev : ∀ j p, j < i → projects[j]? = some p →
      env.run j (syncCmd env c.host c.group c.targetDirectory j p) = none)
    (habsent : env.stat i (pathJoin [c.targetDirectory, name]) = .notExist) :
    ∃ r, action env fuel c = some r ∧
      (invocations r.trace).filter (fun x => x.1 = i) =
        [(i, { args := ["git", "clone",
                 "git@" ++ c.host ++ ":" ++ c.group ++ "/" ++ name ++ ".git"],
               dir := c.targetDirectory })] := by
  obtain ⟨r, hr, _, hf⟩ := action_invocation_at env fuel c projects reqs i name hl hname hprev
  refine ⟨r, hr, ?_⟩
  rw [hf]
  simp [syncCmd, habsent, StatResult.isNotExist, cloneCmd]

/-- C4 on the scenario of the spec: the target `t` holds `b` but not `a`, the
listing is `[a, b]`; the one invocation for `a` is the clone. -/
theorem action_clones_absent_project_witness :
    ∃ r, action envTwoProjects 2 ⟨"g", "h", "tok", "t"⟩ = some r ∧
      (invocations r.trace).filter (fun x => x.1 = 0) =
        [(0, { args := ["git", "clone", "git@" ++ "h" ++ ":" ++ "g" ++ "/" ++ "a" ++ ".git"],
               dir := "t" })] :=
  action_clones_absent_project envTwoProjects 2 ⟨"g", "h", "tok", "t"⟩ ["a", "b"]
    [pageRequest envTwoProjects "h" "g" "tok" 0, pageRequest envTwoProjects "h" "g" "tok" 1]
    0 "a" (by decide) (by decide) (fun j p hj _ => absurd hj (Nat.not_lt_zero j)) (by decide)

/-- C5: for a project `name` at position `i` of the listing whose joined path
`target/name` exists when it is processed, the invocations for the earlier
projects having succeeded, `action` makes exactly one process invocation for
that project: `git fetch origin` with the joined path as working directory, and
so no clone; the joined path is the one path stat'ed for that project. -/
theorem action_fetches_present_project (env : Env) (fuel : Nat) (c : Flags)
    (projects : List String) (reqs : List Request) (i : Nat) (name : String)
    (hl : listProjects env fuel c.host c.group c.accessToken =
      some { names := some projects, err := none, requests := reqs })
    (hname : projects[i]? = some name)
    (hprev : ∀ j p, j < i → projects[j]? = some p →
      env.run j (syncCmd env c.host c.group c.targetDirectory j p) = none)
    (hpresent : env.stat i (pathJoin [c.targetDirectory, name]) = .found) :
    ∃ r, action env fuel c = some r ∧
      (invocations r.trace).filter (fun x => x.1 = i) =
        [(i, { args := ["git", "fetch", "origin"],
               dir := pathJoin [c.targetDirectory, name] })] ∧
      Event.stat i (pathJoin [c.targetDirectory, name]) ∈ r.trace ∧
      ∀ p, Event.stat i p ∈ r.trace → p = pathJoin [c.targetDirectory, name] := by
  obtain ⟨r, hr, htr, hf⟩ :=
    action_invocation_at env fuel c projects reqs i name hl hname hprev
  refine ⟨r, hr, ?_, ?_, ?_⟩
  · rw [hf]
    simp [syncCmd, hpresent, StatResult.isNotExist, fetchCmd]
  · rw [htr]
    have h := syncLoop_stat_mem env c.host c.group c.targetDirectory i projects 0 name hname
      (fun j p hj hp => by simpa using hprev j p hj hp)
    rw [Nat.zero_add] at h
    exact List.mem_append_right _ h
  · intro p hp
    rw [htr] at hp
    simp only [List.mem_append, List.mem_map, List.mem_singleton, reduceCtorEq, and_false,
      exists_false, or_false, false_or] at hp
    obtain ⟨name', _, h2, h3⟩ :=
      syncLoop_stat_path env c.host c.group c.targetDirectory projects 0 i p hp
    rw [Nat.sub_zero, hname] at h2
    rw [h3, ← Option.some.inj h2]

/-- C5 on the scenario of the spec: the target `t` holds `b`, the listing is
`[a, b]`; the one invocation for `b` is the fetch in `t/b`. -/
theorem action_fetches_present_project_witness :
    ∃ r, action envTwoProjects 2 ⟨"g", "h", "tok", "t"⟩ = some r ∧
      (invocations r.trace).filter (fun x => x.1 = 1) =
        [(1, { args := ["git", "fetch", "origin"], dir := pathJoin ["t", "b"] })] ∧
      Event.stat 1 (pathJoin ["t", "b"]) ∈ r.trace ∧
      ∀ p, Event.stat 1 p ∈ r.trace → p = pathJoin ["t", "b"] :=
  action_fetches_present_project envTwoProjects 2 ⟨"g", "h", "tok", "t"⟩ ["a", "b"]
    [pageRequest envTwoProjects "h" "g" "tok" 0, pageRequest envTwoProjects "h" "g" "tok" 1]
    1 "b" (by decide) (by decide)
    (fun j p hj hp => by
      have : j = 0 := by omega
      subst this
      rfl)
    (by decide)

/-- C6, as the code has it: for a project whose joined path does not exist, the
remote that `action` passes to the clone is `git@{host}:{group}/{name}.git`
(the scp-like form, host and group separated by a colon), and the clone runs
with the target directory as working directory. -/
theorem action_clone_remote (env : Env) (fuel : Nat) (c : Flags)
    (projects : List String) (reqs : List Request) (i : Nat) (name : String)
    (hl : listProjects env fuel c.host c.group c.accessToken =
      some { names := some projects, err := none, requests := reqs })
    (hname : projects[i]? = some name)
    (hprev : ∀ j p, j < i → projects[j]? = some p →
      env.run j (syncCmd env c.host c.group c.targetDirectory j p) = none)
    (habsent : env.stat i (pathJoin [c.targetDirectory, name]) = .notExist) :
    ∃ r cmd, action env fuel c = some r ∧ (i, cmd) ∈ invocations r.trace ∧
      cmd.args = ["git", "clone", "git@" ++ c.host ++ ":" ++ c.group ++ "/" ++ name ++ ".git"] ∧
      cmd.dir = c.targetDirectory ∧
      ∀ cmd', (i, cmd') ∈ invocations r.trace → cmd' = cmd := by
  obtain ⟨r, hr, _, hf⟩ := action_invocation_at env fuel c projects reqs i name hl hname hprev
  have hcmd : syncCmd env c.host c.group c.targetDirectory i name =
      cloneCmd c.host c.group c.targetDirectory name := by
    simp [syncCmd, habsent, StatResult.isNotExist]
  rw [hcmd] at hf
  refine ⟨r, cloneCmd c.host c.group c.targetDirectory name, hr, ?_, rfl, rfl, ?_⟩
  · have : (i, cloneCmd c.host c.group c.targetDirectory name) ∈
        (invocations r.trace).filter (fun x => x.1 = i) := by
      rw [hf]; exact List.mem_singleton.mpr rfl
    exact (List.mem_filter.mp this).1
  · intro cmd' h'
    have : (i, cmd') ∈ (invocations r.trace).filter (fun x => x.1 = i) :=
      List.mem_filter.mpr ⟨h', by simp⟩
    rw [hf] at this
    exact congrArg Prod.snd (List.mem_singleton.mp this)

/-- C6 at a run: the target `t` does not hold `a`; the remote of the clone is
`git@h:g/a.git`. -/
theorem action_clone_remote_witness :
    ∃ r cmd, action envTwoProjects 2 ⟨"g", "h", "tok", "t"⟩ = some r ∧
      (0, cmd) ∈ invocations r.trace ∧
      cmd.args = ["git", "clone", "git@" ++ "h" ++ ":" ++ "g" ++ "/" ++ "a" ++ ".git"] ∧
      cmd.dir = "t" ∧
      ∀ cmd', (0, cmd') ∈ invocations r.trace → cmd' = cmd :=
  action_clone_remote envTwoProjects 2 ⟨"g", "h", "tok", "t"⟩ ["a", "b"]
    [pageRequest envTwoProjects "h" "g" "tok" 0, pageRequest envTwoProjects "h" "g" "tok" 1]
    0 "a" (by decide) (by decide) (fun j p hj _ => absurd hj (Nat.not_lt_zero j)) (by decide)

/-- C6 fails on the code: with host `h`, group `g` and the absent project `a`,
the invocations of `action` are the clone of `git@h:g/a.git` and a fetch; no
invocation carries the remote `ssh://git@h/g/a.git`. -/
theorem action_clone_remote_not_ssh :
    envTwoProjects.stat 0 (pathJoin ["t", "a"]) = .notExist ∧
    (action envTwoProjects 2 ⟨"g", "h", "tok", "t"⟩).map (fun r => invocations r.trace) =
      some [(0, { args := ["git", "clone", "git@h:g/a.git"], dir := "t" }),
            (1, { args := ["git", "fetch", "origin"], dir := "t/b" })] ∧
    "git@h:g/a.git" ≠ "ssh://git@h/g/a.git" := by
  decide

/-- C7: with the listing `p_0 .. p_{n-1}`: if the invocation for `p_k` exits with
a non-zero status while those for `p_0 .. p_{k-1}` succeeded, `action` makes
exactly `k + 1` invocations, the one for each of `p_0 .. p_k` in listing order,
and none for a later project; if every invocation succeeds it makes exactly `n`
invocations, one per project in listing order. -/
theorem action_stops_at_first_failure (env : Env) (fuel : Nat) (c : Flags)
    (projects : List String) (reqs : List Request)
    (hl : listProjects env fuel c.host c.group c.accessToken =
      some { names := some projects, err := none, requests := reqs }) :
    (∀ k name, projects[k]? = some name →
      (∀ j p, j < k → projects[j]? = some p →
        env.run j (syncCmd env c.host c.group c.targetDirectory j p) = none) →
      env.run k (syncCmd env c.host c.group c.targetDirectory k name) ≠ none →
      ∃ r, action env fuel c = some r ∧
        invocations r.trace = ((projects.take (k + 1)).enum.map
          (fun x => (x.1, syncCmd env c.host c.group c.targetDirectory x.1 x.2))) ∧
        (invocations r.trace).length = k + 1) ∧
    ((∀ j p, projects[j]? = some p →
        env.run j (syncCmd env c.host c.group c.targetDirectory j p) = none) →
      ∃ r, action env fuel c = some r ∧
        invocations r.trace = (projects.enum.map
          (fun x => (x.1, syncCmd env c.host c.group c.targetDirectory x.1 x.2))) ∧
        (invocations r.trace).length = projects.length) := by
  constructor
  · intro k name hname hprev hfail
    refine ⟨_, action_of_listing env fuel c projects reqs hl, ?_, ?_⟩
    · rw [action_invocations]
      have h := syncLoop_stops env c.host c.group c.targetDirectory k projects 0 name hname
        (fun j p hj hp => by simpa using hprev j p hj hp) (by simpa using hfail)
      rw [h]
      rfl
    · rw [action_invocations]
      have h := syncLoop_stops env c.host c.group c.targetDirectory k projects 0 name hname
        (fun j p hj hp => by simpa using hprev j p hj hp) (by simpa using hfail)
      rw [h]
      have hk : k < projects.length := by
        rcases List.getElem?_eq_some_iff.mp hname with ⟨h1, _⟩
        exact h1
      simp [List.enumFrom_length]
      omega
  · intro hall
    refine ⟨_, action_of_listing env fuel c projects reqs hl, ?_, ?_⟩
    · rw [action_invocations]
      have h := syncLoop_all env c.host c.group c.targetDirectory projects 0
        (fun j p hp => by simpa using hall j p hp)
      rw [h]
      rfl
    · rw [action_invocations]
      have h := syncLoop_all env c.host c.group c.targetDirectory projects 0
        (fun j p hp => by simpa using hall j p hp)
      rw [h]
      simp [List.enumFrom_length]

/-- C7 at two runs: with the listing `[a, b, c]` and a failing invocation for `b`
there are two invocations, the clones of `a` and `b`; with the listing `[a, b]`
and no failure there are two, the clone of `a` and the fetch of `b`. -/
theorem action_stops_at_first_failure_witness :
    (∃ r, action envSecondFails 2 ⟨"g", "h", "tok", "t"⟩ = some r ∧
      invocations r.trace =
        [(0, { args := ["git", "clone", "git@h:g/a.git"], dir := "t" }),
         (1, { args := ["git", "clone", "git@h:g/b.git"], dir := "t" })] ∧
      (invocations r.trace).length = 1 + 1) ∧
    (∃ r, action envTwoProjects 2 ⟨"g", "h", "tok", "t"⟩ = some r ∧
      invocations r.trace =
        [(0, { args := ["git", "clone", "git@h:g/a.git"], dir := "t" }),
         (1, { args := ["git", "fetch", "origin"], dir := "t/b" })] ∧
      (invocations r.trace).length = 2) := by
  constructor
  · obtain ⟨r, hr, hinv, hlen⟩ :=
      (action_stops_at_first_failure envSecondFails 2 ⟨"g", "h", "tok", "t"⟩ ["a", "b", "c"]
        [pageRequest envSecondFails "h" "g" "tok" 0, pageRequest envSecondFails "h" "g" "tok" 1]
        (by decide)).1 1 "b" (by decide)
        (fun j p hj hp => by
          have : j = 0 := by omega
          subst this
          rfl)
        (by decide)
    refine ⟨r, hr, ?_, hlen⟩
    rw [hinv]
    decide
  · obtain ⟨r, hr, hinv, hlen⟩ :=
      (action_stops_at_first_failure envTwoProjects 2 ⟨"g", "h", "tok", "t"⟩ ["a", "b"]
        [pageRequest envTwoProjects "h" "g" "tok" 0, pageRequest envTwoProjects "h" "g" "tok" 1]
        (by decide)).2 (fun j p hp => rfl)
    refine ⟨r, hr, ?_, hlen⟩
    rw [hinv]
    decide

/-- The raw URL of the listing is plain when host and group are. -/
theorem projectsURL_plain (host group : String)
    (hhost : ∀ ch ∈ host.data, unreserved ch = true)
    (hgroup : ∀ ch ∈ group.data, unreserved ch = true) :
    (projectsURL host group).data.take 8 = "https://".data ∧
      ((projectsURL host group).data.drop 8).all plainURLChar = true := by
  have hd : (projectsURL host group).data =
      "https://".data ++ (host.data ++ ("/api/v4/groups/".data ++
        (group.data ++ "/projects".data))) := by
    simp [projectsURL, String.data_append, List.append_assoc]
  have h8 : "https://".data.length = 8 := by decide
  rw [hd]
  refine ⟨?_, ?_⟩
  · rw [List.take_append_of_le_length (by rw [h8])]
    decide
  · rw [List.drop_append_of_le_length (by rw [h8])]
    have e : List.drop 8 "https://".data = [] := by decide
    rw [e, List.nil_append]
    simp only [List.all_append, Bool.and_eq_true, List.all_eq_true]
    refine ⟨fun x hx => ?_, ?_, fun x hx => ?_, ?_⟩
    · simp [plainURLChar, hhost x hx]
    · decide
    · simp [plainURLChar, hgroup x hx]
    · decide

/-- C8, as the code has it: the request of iteration `n` is a GET created from
the text `https://{host}/api/v4/groups/{group}/projects`; when that URL has no
query of its own, the query string set on it is
`access_token={QueryEscape(token)}&page={n}&per_page=100`, these three
parameters in this order, `n` in decimal; when host, group and token hold only
ASCII letters, digits and `-`, `_`, `.`, `~`, the URL that is requested is the
one of the claim.  The requests `listProjects` has sent when it returns are the
requests of the iterations `0, 1, 2, ...` in this order. -/
theorem pageRequest_url (env : Env) (host group tok : String) (n : Nat)
    (hq : env.query (projectsURL host group) = []) :
    (pageRequest env host group tok n).method = "GET" ∧
    (pageRequest env host group tok n).rawURL =
      "https://" ++ host ++ "/api/v4/groups/" ++ group ++ "/projects" ∧
    (pageRequest env host group tok n).rawQuery =
      "access_token=" ++ queryEscape tok ++ "&page=" ++ toString n ++ "&per_page=100" ∧
    ((∀ ch ∈ host.data, unreserved ch = true) → (∀ ch ∈ group.data, unreserved ch = true) →
      (∀ ch ∈ tok.data, unreserved ch = true) →
      (pageRequest env host group tok n).urlString =
        some ("https://" ++ host ++ "/api/v4/groups/" ++ group ++ "/projects" ++ "?" ++
          ("access_token=" ++ tok ++ "&page=" ++ toString n ++ "&per_page=100"))) ∧
    ∀ fuel r m req, listProjects env fuel host group tok = some r →
      r.requests[m]? = some req → req = pageRequest env host group tok m := by
  rw [pageRequest_no_query env host group tok n hq]
  refine ⟨rfl, rfl, rfl, ?_, ?_⟩
  · intro hhost hgroup htok
    have hp := projectsURL_plain host group hhost hgroup
    unfold Request.urlString
    rw [if_pos hp]
    simp only [queryEscape_of_unreserved tok htok, projectsURL]
  · intro fuel r m req hl hm
    obtain ⟨cnt, hreqs⟩ := listLoop_requests env host group tok fuel 0 [] [] r hl
    rw [hreqs] at hm
    simp only [List.nil_append, Nat.zero_add] at hm
    rw [List.getElem?_map] at hm
    cases hrange : (List.range cnt)[m]? with
    | none => rw [hrange] at hm; simp at hm
    | some v =>
      rw [hrange] at hm
      have hv : v = m := by
        rcases List.getElem?_eq_some_iff.mp hrange with ⟨h1, h2⟩
        simpa using h2.symm
      subst hv
      exact (Option.some.inj hm).symm

/-- C8 at a run: host `h`, group `g`, token `tok`; the URL of the first request. -/
theorem pageRequest_url_witness :
    (pageRequest envTwoProjects "h" "g" "tok" 0).urlString =
      some "https://h/api/v4/groups/g/projects?access_token=tok&page=0&per_page=100" := by
  have h := (pageRequest_url envTwoProjects "h" "g" "tok" 0 rfl).2.2.2.1
    (by decide) (by decide) (by decide)
  rw [h]
  decide

/-- C8 fails on the code: the token `a b` is sent as `a+b`, the token `a&b` as
`a%26b`, so the URL requested is not the one of the claim; and with the group
`g?z=1` the query string carries a fourth parameter. -/
theorem pageRequest_escapes_token :
    (pageRequest envTwoProjects "h" "g" "a b" 0).rawQuery =
      "access_token=a+b&page=0&per_page=100" ∧
    (pageRequest envTwoProjects "h" "g" "a&b" 0).rawQuery =
      "access_token=a%26b&page=0&per_page=100" ∧
    (pageRequest envTwoProjects "h" "g" "a b" 0).urlString =
      some "https://h/api/v4/groups/g/projects?access_token=a+b&page=0&per_page=100" ∧
    (pageRequest envTwoProjects "h" "g" "a b" 0).urlString ≠
      some "https://h/api/v4/groups/g/projects?access_token=a b&page=0&per_page=100" ∧
    (pageRequest envOwnQuery "h" "g?z=1" "tok" 0).rawQuery =
      "access_token=tok&page=0&per_page=100&z=1%2Fprojects" := by
  decide

/-- C10, as the code has it: for the project `name` at position `i`, the
invocations for the earlier projects having succeeded, `action` makes exactly
one invocation, chosen only by the stat of `path.Join(target, name)`: the clone
when that stat reports not-exist, in every other case (the path exists, or the
stat fails for another reason) the fetch with the joined path as working
directory.  The name `.` always joins to the cleaned target directory, and so
does the empty name when the target directory is not empty; such a project is
fetched in the cleaned target directory, and not cloned, whenever the stat of
that directory does not report not-exist. -/
theorem action_decides_by_stat (env : Env) (fuel : Nat) (c : Flags)
    (projects : List String) (reqs : List Request) (i : Nat) (name : String)
    (hl : listProjects env fuel c.host c.group c.accessToken =
      some { names := some projects, err := none, requests := reqs })
    (hname : projects[i]? = some name)
    (hprev : ∀ j p, j < i → projects[j]? = some p →
      env.run j (syncCmd env c.host c.group c.targetDirectory j p) = none) :
    ∃ r, action env fuel c = some r ∧
      (invocations r.trace).filter (fun x => x.1 = i) =
        [(i, if env.stat i (pathJoin [c.targetDirectory, name]) = .notExist
             then { args := ["git", "clone",
                      "git@" ++ c.host ++ ":" ++ c.group ++ "/" ++ name ++ ".git"],
                    dir := c.targetDirectory }
             else { args := ["git", "fetch", "origin"],
                    dir := pathJoin [c.targetDirectory, name] })] ∧
      (∀ e, env.stat i (pathJoin [c.targetDirectory, name]) = .failed e →
        (invocations r.trace).filter (fun x => x.1 = i) =
          [(i, { args := ["git", "fetch", "origin"],
                 dir := pathJoin [c.targetDirectory, name] })]) ∧
      pathJoin [c.targetDirectory, "."] = pathClean c.targetDirectory ∧
      (c.targetDirectory ≠ "" →
        pathJoin [c.targetDirectory, ""] = pathClean c.targetDirectory) ∧
      ((name = "." ∨ (name = "" ∧ c.targetDirectory ≠ "")) →
        env.stat i (pathClean c.targetDirectory) ≠ .notExist →
        (invocations r.trace).filter (fun x => x.1 = i) =
          [(i, { args := ["git", "fetch", "origin"],
                 dir := pathClean c.targetDirectory })]) := by
  obtain ⟨r, hr, _, hf⟩ := action_invocation_at env fuel c projects reqs i name hl hname hprev
  have hcmd : syncCmd env c.host c.group c.targetDirectory i name =
      if env.stat i (pathJoin [c.targetDirectory, name]) = .notExist
      then { args := ["git", "clone",
               "git@" ++ c.host ++ ":" ++ c.group ++ "/" ++ name ++ ".git"],
             dir := c.targetDirectory }
      else { args := ["git", "fetch", "origin"],
             dir := pathJoin [c.targetDirectory, name] } := by
    unfold syncCmd cloneCmd fetchCmd
    cases hs : env.stat i (pathJoin [c.targetDirectory, name]) <;>
      simp [StatResult.isNotExist]
  rw [hcmd] at hf
  refine ⟨r, hr, hf, ?_, pathJoin_dot c.targetDirectory,
    pathJoin_empty_name c.targetDirectory, ?_⟩
  · intro e he
    rw [hf, he]
    simp
  · intro hcase hstat
    have hjoin : pathJoin [c.targetDirectory, name] = pathClean c.targetDirectory := by
      rcases hcase with h | ⟨h, ht⟩
      · rw [h]; exact pathJoin_dot c.targetDirectory
      · rw [h]; exact pathJoin_empty_name c.targetDirectory ht
    rw [hf, hjoin, if_neg hstat]

/-- C10 at a run: the stat of `t/a` fails with permission denied; `a` is fetched
in `t/a`. -/
theorem action_decides_by_stat_witness :
    ∃ r, action envStatFails 2 ⟨"g", "h", "tok", "t"⟩ = some r ∧
      (invocations r.trace).filter (fun x => x.1 = 0) =
        [(0, { args := ["git", "fetch", "origin"], dir := "t/a" })] := by
  obtain ⟨r, hr, hf, _⟩ :=
    action_decides_by_stat envStatFails 2 ⟨"g", "h", "tok", "t"⟩ ["a"]
      [pageRequest envStatFails "h" "g" "tok" 0, pageRequest envStatFails "h" "g" "tok" 1]
      0 "a" (by decide) (by decide) (fun j p hj _ => absurd hj (Nat.not_lt_zero j))
  refine ⟨r, hr, ?_⟩
  rw [hf]
  decide

/-- C10 fails on the code: with the empty target directory (the flag not given)
and a project whose name is empty, the joined path is the empty path, whose stat
reports not-exist; the project is cloned, not fetched. -/
theorem action_clones_empty_name :
    pathJoin ["", ""] = "" ∧
    envEmptyName.stat 0 (pathJoin ["", ""]) = .notExist ∧
    (action envEmptyName 2 ⟨"g", "h", "tok", ""⟩).map (fun r => invocations r.trace) =
      some [(0, { args := ["git", "clone", "git@h:g/.git"], dir := "" })] := by
  decide

end GitlabCloner
